import Mathlib

/-!
Verification of the MTG-Card-Tagger enrichment pipeline (`src/tag_cards.py`).

The Python source is shallowly embedded: pure helpers become Lean functions,
the stateful output sink becomes explicit state passing, and the asyncio
dispatcher becomes a small-step transition relation.  `json.loads` /
`json.dumps` are external collaborators; theorems about string-level behaviour
are parameterised over the parsing oracle, and a concrete executable JSON
parser/printer (`pyLoads` / `pyDumps`) instantiates them on concrete inputs.
-/

namespace MTGTagger

/-- A parsed JSON value, as produced by Python's `json.loads`
(numbers restricted to integers, which covers every value the
pipeline's concrete test inputs use). -/
inductive JVal where
  | jnull : JVal
  | jbool : Bool → JVal
  | jnum : Int → JVal
  | jstr : String → JVal
  | jarr : List JVal → JVal
  | jobj : List (String × JVal) → JVal

open JVal

/-- Python truthiness (`if result:`) of a parsed JSON value:
`None`, `False`, `0`, `""`, `[]`, `{}` are falsy. -/
def truthy : JVal → Bool
  | jnull => false
  | jbool b => b
  | jnum n => decide (n ≠ 0)
  | jstr s => decide (s ≠ "")
  | jarr l => !l.isEmpty
  | jobj l => !l.isEmpty

/-- Whether a JSON value is an object (a Python `dict`). -/
def isObjVal : JVal → Bool
  | jobj _ => true
  | _ => false

/-- Python whitespace characters recognised by `str.strip()` and the JSON
lexer (ASCII fragment). -/
def isPyWs (c : Char) : Bool :=
  [' ', '\t', '\n', '\r', '\x0b', '\x0c'].contains c

/-- Model of Python `str.strip()`: drop whitespace from both ends. -/
def pyStrip (s : String) : String :=
  String.mk (((s.data.dropWhile isPyWs).reverse.dropWhile isPyWs).reverse)

/-- Skip leading JSON whitespace. -/
def skipWs : List Char → List Char
  | [] => []
  | c :: cs => if isPyWs c then skipWs cs else c :: cs

/-- Decode the character following a backslash in a JSON string literal
(the escapes `json.dumps` emits). -/
def escDecode (e : Char) : Option Char :=
  if e = 'n' then some '\n'
  else if e = 't' then some '\t'
  else if e = 'r' then some '\r'
  else if e = '"' ∨ e = '\\' ∨ e = '/' then some e
  else none

/-- Parse the body of a JSON string literal (after the opening quote),
returning the decoded characters and the remaining input. -/
def parseStrChars : List Char → Option (List Char × List Char)
  | [] => none
  | '"' :: rest => some ([], rest)
  | '\\' :: e :: rest =>
    (escDecode e).bind fun c =>
      (parseStrChars rest).map fun p => (c :: p.1, p.2)
  | c :: rest =>
    if c = '"' ∨ c = '\\' then none
    else (parseStrChars rest).map fun p => (c :: p.1, p.2)

/-- Digits-to-number accumulator for JSON integer literals. -/
def digitsVal (acc : Nat) : List Char → Nat
  | [] => acc
  | c :: cs => digitsVal (acc * 10 + (c.toNat - '0'.toNat)) cs

/-- Parse a JSON integer literal (optional minus sign, digit run). -/
def parseNum (cs : List Char) : Option (JVal × List Char) :=
  let p := fun (l : List Char) => l.span Char.isDigit
  match cs with
  | '-' :: rest =>
    let d := p rest
    if d.1 = [] then none else some (jnum (-(digitsVal 0 d.1 : Int)), d.2)
  | _ =>
    let d := p cs
    if d.1 = [] then none else some (jnum ((digitsVal 0 d.1 : Int)), d.2)

/-- Strip an expected literal tail (the remaining letters of `null`, `true`
or `false`) from the input. -/
def litTail : List Char → List Char → Option (List Char)
  | [], cs => some cs
  | k :: ks, c :: cs => if c = k then litTail ks cs else none
  | _ :: _, [] => none

mutual

/-- Fuel-indexed recursive-descent parser for one JSON value,
modelling the grammar accepted by Python's `json.loads`. -/
def parseVal (fuel : Nat) (cs : List Char) : Option (JVal × List Char) :=
  match fuel with
  | 0 => none
  | fuel' + 1 =>
    match skipWs cs with
    | [] => none
    | c :: rest =>
      if c = 'n' then
        (litTail ['u', 'l', 'l'] rest).map fun r => (jnull, r)
      else if c = 't' then
        (litTail ['r', 'u', 'e'] rest).map fun r => (jbool true, r)
      else if c = 'f' then
        (litTail ['a', 'l', 's', 'e'] rest).map fun r => (jbool false, r)
      else if c = '"' then
        (parseStrChars rest).map fun p => (jstr (String.mk p.1), p.2)
      else if c = '[' then
        match skipWs rest with
        | ']' :: r => some (jarr [], r)
        | r => (parseItems fuel' r).map fun p => (jarr p.1, p.2)
      else if c = '\x7b' then
        match skipWs rest with
        | '\x7d' :: r => some (jobj [], r)
        | r => (parseMembers fuel' r).map fun p => (jobj p.1, p.2)
      else parseNum (c :: rest)

/-- Parse the comma-separated items of a nonempty JSON array,
up to and including the closing bracket. -/
def parseItems (fuel : Nat) (cs : List Char) : Option (List JVal × List Char) :=
  match fuel with
  | 0 => none
  | fuel' + 1 =>
    (parseVal fuel' cs).bind fun p =>
      match skipWs p.2 with
      | ',' :: r => (parseItems fuel' r).map fun q => (p.1 :: q.1, q.2)
      | ']' :: r => some ([p.1], r)
      | _ => none

/-- Parse the members of a nonempty JSON object,
up to and including the closing brace. -/
def parseMembers (fuel : Nat) (cs : List Char) :
    Option (List (String × JVal) × List Char) :=
  match fuel with
  | 0 => none
  | fuel' + 1 =>
    match skipWs cs with
    | '"' :: rest =>
      (parseStrChars rest).bind fun k =>
        match skipWs k.2 with
        | ':' :: r =>
          (parseVal fuel' r).bind fun p =>
            (match skipWs p.2 with
             | ',' :: r2 =>
               (parseMembers fuel' r2).map fun q =>
                 ((String.mk k.1, p.1) :: q.1, q.2)
             | '\x7d' :: r2 => some ([(String.mk k.1, p.1)], r2)
             | _ => none)
        | _ => none
    | _ => none

end

/-- Executable model of Python `json.loads`: parse a complete JSON document,
allowing surrounding whitespace, requiring all input consumed. -/
def pyLoads (s : String) : Option JVal :=
  match parseVal (s.length + 1) s.data with
  | some (v, rest) => if skipWs rest = [] then some v else none
  | none => none

/-- `True` when the string is a complete JSON document (`json.loads` succeeds). -/
def jsonOk (s : String) : Bool := (pyLoads s).isSome

/-- Escape one character for a JSON string literal, as `json.dumps` does. -/
def escChar (c : Char) : List Char :=
  if c = '"' then ['\\', '"']
  else if c = '\\' then ['\\', '\\']
  else if c = '\n' then ['\\', 'n']
  else if c = '\t' then ['\\', 't']
  else if c = '\r' then ['\\', 'r']
  else [c]

/-- Serialise a string as a quoted JSON string literal. -/
def dumpsStr (s : String) : String :=
  String.mk ('"' :: (s.data.flatMap escChar ++ ['"']))

mutual

/-- Executable model of Python `json.dumps` with its default separators. -/
def pyDumps : JVal → String
  | jnull => "null"
  | jbool true => "true"
  | jbool false => "false"
  | jnum n => toString n
  | jstr s => dumpsStr s
  | jarr vs => "[" ++ dumpsItems vs ++ "]"
  | jobj ms => "\x7b" ++ dumpsMembers ms ++ "\x7d"

/-- Comma-separated serialisation of array items. -/
def dumpsItems : List JVal → String
  | [] => ""
  | [v] => pyDumps v
  | v :: vs => pyDumps v ++ ", " ++ dumpsItems vs

/-- Comma-separated serialisation of object members. -/
def dumpsMembers : List (String × JVal) → String
  | [] => ""
  | [(k, v)] => dumpsStr k ++ ": " ++ pyDumps v
  | (k, v) :: ms => dumpsStr k ++ ": " ++ pyDumps v ++ ", " ++ dumpsMembers ms

end

/-- Python slice `t[a:b]` on strings (with `a ≤ b ≤ len t`). -/
def pySlice (t : String) (a b : Nat) : String :=
  String.mk ((t.data.drop a).take (b - a))

/-- Index of the earliest `\x7b` or `[` in the text, modelling
`min([i for i in [txt.find("\x7b"), txt.find("[")] if i != -1], default=-1)`. -/
def firstBrace : List Char → Option Nat
  | [] => none
  | c :: rest =>
    if c = '\x7b' ∨ c = '[' then some 0
    else (firstBrace rest).map (· + 1)

/-- The backward scan of `clean_json`: with `k` candidate end positions left,
try end `first + k` and count down; give back the whole text if none parses. -/
def scanEnds (ok : String → Bool) (t : String) (first : Nat) : Nat → String
  | 0 => t
  | k + 1 =>
    let snippet := pySlice t first (first + k + 1)
    if ok snippet then snippet else scanEnds ok t first k

/-- The body of `clean_json` after `txt = txt.strip()`: try the whole text,
else scan substrings starting at the earliest brace/bracket, with end
positions from the end of the text downward. -/
def cleanJsonBody (ok : String → Bool) (t : String) : String :=
  if ok t then t
  else
    match firstBrace t.data with
    | none => t
    | some first => scanEnds ok t first (t.length - first)

/-- Model of `clean_json`, parameterised by the JSON-validity oracle `ok`
(Python `json.loads` succeeding). -/
def clean_json (ok : String → Bool) (txt : String) : String :=
  cleanJsonBody ok (pyStrip txt)

/-- Backoff duration for a given attempt, modelling
`min((1.5 ** attempt) + random.random()*0.2, 30)`; the jitter drawn by
`random.random()*0.2` is abstracted as a function of the attempt index. -/
def backoff (jit : Nat → ℚ) (attempt : Nat) : ℚ :=
  min ((3 / 2 : ℚ) ^ attempt + jit attempt) 30

/-- What one run of the retry loop produced: the returned value (`none` is
the `None` sentinel), the backoff delays performed in order, and the number
of attempts made. -/
structure RetryOutcome where
  result : Option JVal
  delays : List ℚ
  attempts : Nat

/-- The retry loop of `tag_card_sync`: `att i` is the outcome of attempt `i`
(`none` when the body raised, `some v` when the response parsed to `v`);
on an exception the loop backs off and retries with the remaining budget. -/
def retryRun (att : Nat → Option JVal) (jit : Nat → ℚ) : Nat → Nat → RetryOutcome
  | 0, _ => ⟨none, [], 0⟩
  | fuel + 1, i =>
    match att i with
    | some v => ⟨some v, [], 1⟩
    | none =>
      let o := retryRun att jit fuel (i + 1)
      ⟨o.result, backoff jit i :: o.delays, o.attempts + 1⟩

/-- Model of `tag_card_sync` (and of the identical loop in `tag_card_async`):
run up to `retries` attempts starting at attempt index 0; return `None`
after exhausting the budget.  Totality of this function is the model of
"never raises past this boundary". -/
def tag_card_sync (att : Nat → Option JVal) (jit : Nat → ℚ)
    (retries : Nat) : RetryOutcome :=
  retryRun att jit retries 0

/-- MTG color symbols, the values admitted by the `--colors` option. -/
inductive MColor where
  | W | U | B | R | G
deriving DecidableEq, Repr

/-- An input card record (the fields the pipeline reads; `oracle_id` and
`oracle_text` are optional keys accessed with `.get`). -/
structure Card where
  name : String
  oracle_id : Option String
  oracle_text : Option String
  color_identity : List MColor
deriving DecidableEq, Repr

/-- Output-sink state of one run: the written lines of each output file
(indexed as in `get_output_filename`), plus the ambient counters
`current_file_index`, `current_file_count`, `successful_count`. -/
structure SinkState where
  files : Nat → List String
  file_index : Nat
  file_count : Nat
  successful : Nat

/-- Sink state at the start of a run over a fresh output directory. -/
def sink0 : SinkState := ⟨fun _ => [], 0, 0, 0⟩

/-- The file-switch check `if split_size > 0 and current_file_count >= split_size`. -/
def sinkRollover (split : Nat) (s : SinkState) : SinkState :=
  if 0 < split ∧ split ≤ s.file_count then
    { s with file_index := s.file_index + 1, file_count := 0 }
  else s

/-- Append one line to the current output file and bump the counters. -/
def sinkAppend (s : SinkState) (line : String) : SinkState :=
  { s with
    files := fun j => if j = s.file_index then s.files j ++ [line] else s.files j,
    file_count := s.file_count + 1,
    successful := s.successful + 1 }

/-- One result handed to the sink in sequential or async mode (`safe_tag` and
the sequential loop share this block): skip falsy results, otherwise check
the split threshold, append `json.dumps(result)` as one line, bump counters. -/
def sinkWrite (dumps : JVal → String) (split : Nat) (s : SinkState) :
    Option JVal → SinkState
  | none => s
  | some v => if truthy v then sinkAppend (sinkRollover split s) (dumps v) else s

/-- A full sequential run of the write loop over the card list (async mode
performs the same atomic block once per card, in completion order, so it is
this fold over some permutation of the cards). -/
def runSeq (dumps : JVal → String) (outcome : Card → Option JVal)
    (split : Nat) (cards : List Card) (s : SinkState) : SinkState :=
  cards.foldl (fun st c => sinkWrite dumps split st (outcome c)) s

/-- One result written inside the batch-mode inner loop: no split check
happens here, the file was chosen before the loop. -/
def batchWriteOne (dumps : JVal → String) (s : SinkState) :
    Option JVal → SinkState
  | none => s
  | some v => if truthy v then sinkAppend s (dumps v) else s

/-- The batch-mode write loop: the split threshold is checked once per batch,
then every truthy result of the batch is appended to that one file. -/
def runBatchMode (dumps : JVal → String) (split : Nat)
    (batchResults : List (List (Option JVal))) (s : SinkState) : SinkState :=
  batchResults.foldl
    (fun st rs => rs.foldl (batchWriteOne dumps) (sinkRollover split st)) s

/-- The resume-disabled branch `Path(args.output).write_text("")`: only the
base output file (index 0) is truncated; part files keep their contents. -/
def clearBase (fs : Nat → List String) : Nat → List String :=
  fun i => if i = 0 then [] else fs i

/-- Model of `get_output_filename`: the base name for index 0, and
`stem_part{index+1}suffix` for later indices. -/
def get_output_filename (stem suffix : String) (file_index : Nat) : String :=
  if file_index = 0 then stem ++ suffix
  else stem ++ "_part" ++ toString (file_index + 1) ++ suffix

/-- All lines of the output store, in file order, across the files the run
has reached so far. -/
def flatTo (s : SinkState) : List String :=
  (List.range (s.file_index + 1)).flatMap s.files

/-- The line (if any) one result contributes to the store: `json.dumps` of a
truthy value, nothing for `None` or a falsy value. -/
def resLine (dumps : JVal → String) : Option JVal → Option String
  | some v => if truthy v then some (dumps v) else none
  | none => none

/-- The lines a run appends: one `json.dumps` line per card whose outcome is
a truthy value, in processing order. -/
def newLines (dumps : JVal → String) (outcome : Card → Option JVal)
    (cards : List Card) : List String :=
  cards.filterMap fun c => resLine dumps (outcome c)

/-- The lines a batch-mode run appends: one line per truthy result, in batch
order then result order. -/
def batchLines (dumps : JVal → String)
    (batchResults : List (List (Option JVal))) : List String :=
  batchResults.flatMap fun rs => rs.filterMap (resLine dumps)

/-- The color-identity filter of `main`: applied only when `--colors` or
`--colorless` was given; keeps colorless cards when the flag is set, and
cards whose identity set equals the (nonempty) target set exactly. -/
def color_identity_filter (colors : List MColor) (colorless : Bool)
    (cards : List Card) : List Card :=
  if colors.isEmpty ∧ colorless = false then cards
  else
    let target := colors.toFinset
    cards.filter fun c =>
      let cc := c.color_identity.toFinset
      (colorless && decide (cc = ∅)) || (decide (target ≠ ∅) && decide (cc = target))

/-- Python `dict` lookup on a parsed JSON object: with duplicate keys,
`json.loads` keeps the last binding. -/
def objLookup (key : String) : List (String × JVal) → Option JVal
  | [] => none
  | (k, v) :: rest =>
    match objLookup key rest with
    | some w => some w
    | none => if k = key then some v else none

/-- Model of `result.get("oracle_id")` during the resume scan: `none` means
the attribute access raised (the parsed line was not a dict); `some oid`
is the Python value added to the set, where `oid = none` is Python `None`
(a missing key or a JSON `null`). -/
def resultGetOid : JVal → Option (Option JVal)
  | jobj fields =>
    some (match objLookup "oracle_id" fields with
          | none => none
          | some jnull => none
          | some w => some w)
  | _ => none

/-- The resume scan over the lines of the existing output file: skip blank
lines, parse each other line with `json.loads` and record its `oracle_id`;
any raising line (parse failure or non-dict value) aborts the whole scan
(`none`), matching the enclosing `try`/`except`. -/
def resumeScan (loads : String → Option JVal) : List String → Option (List (Option JVal))
  | [] => some []
  | l :: ls =>
    if pyStrip l = "" then resumeScan loads ls
    else
      match loads (pyStrip l) with
      | none => none
      | some v =>
        match resultGetOid v with
        | none => none
        | some oid => (resumeScan loads ls).map fun ids => oid :: ids

/-- Python `==` between a card's `oracle_id` (a string or `None`) and a value
recorded by the resume scan. -/
def pyEqOid : Option String → Option JVal → Bool
  | none, none => true
  | some s, some (jstr t) => s = t
  | _, _ => false

/-- Apply the resume scan to the input set: when the scan succeeds the cards
whose `oracle_id` is in the collected set are removed; when it raises, the
warning is printed and the input set is left unfiltered. -/
def applyResume (loads : String → Option JVal) (storeLines : List String)
    (cards : List Card) : List Card :=
  match resumeScan loads storeLines with
  | some ids => cards.filter fun c => !(ids.any (pyEqOid c.oracle_id))
  | none => cards

/-- The resume branch of `main`: the scan-and-filter runs only when `--resume`
was given and the output file exists. -/
def mainResume (loads : String → Option JVal) (resume storeExists : Bool)
    (storeLines : List String) (cards : List Card) : List Card :=
  if resume ∧ storeExists then applyResume loads storeLines cards else cards

/-- Status of one `safe_tag` task in the async dispatcher. -/
inductive TStatus where
  | pending | running | done
deriving DecidableEq, Repr

/-- Number of tasks currently inside the semaphore (in-flight remote calls). -/
def countRunning : List TStatus → Nat
  | [] => 0
  | t :: ts => (if t = TStatus.running then 1 else 0) + countRunning ts

/-- Global state of `batch_tag_cards_async`: the semaphore's free-slot count
and, per submitted task, its status and how many times it has entered the
gate (a ghost counter recording processing multiplicity). -/
structure DispatchState where
  avail : Nat
  tasks : List TStatus
  calls : List Nat
deriving DecidableEq, Repr

/-- Cooperative small-step transitions of the async dispatcher: a pending
task acquires a free semaphore slot and starts its remote call, or a running
task finishes, releases its slot, and hands its result to the sink. -/
inductive DispatchStep : DispatchState → DispatchState → Prop
  | acquire (s : DispatchState) (i : Nat)
      (hp : s.tasks.getD i TStatus.done = TStatus.pending)
      (ha : 0 < s.avail) :
      DispatchStep s
        ⟨s.avail - 1, s.tasks.set i TStatus.running,
         s.calls.set i (s.calls.getD i 0 + 1)⟩
  | release (s : DispatchState) (i : Nat)
      (hr : s.tasks.getD i TStatus.done = TStatus.running) :
      DispatchStep s
        ⟨s.avail + 1, s.tasks.set i TStatus.done, s.calls⟩

/-- Initial dispatcher state: `asyncio.Semaphore(concurrency)` full, one
task submitted up front per input card, none started yet. -/
def dispatchInit (concurrency : Nat) (cards : List Card) : DispatchState :=
  ⟨concurrency, List.replicate cards.length TStatus.pending,
   List.replicate cards.length 0⟩

/-- States the dispatcher can reach during a run with gate capacity
`concurrency` over the given cards. -/
def DispatchReachable (concurrency : Nat) (cards : List Card)
    (s : DispatchState) : Prop :=
  Relation.ReflTransGen DispatchStep (dispatchInit concurrency cards) s

/-! ### Retry/backoff controller lemmas -/

theorem delayShift (jit : Nat → ℚ) (start n : Nat) :
    (List.range (n + 1)).map (fun i => backoff jit (start + i)) =
      backoff jit start :: (List.range n).map (fun i => backoff jit (start + 1 + i)) := by
  have h : ∀ a ∈ List.range n,
      ((fun i => backoff jit (start + i)) ∘ Nat.succ) a =
        (fun i => backoff jit (start + 1 + i)) a := by
    intro a _
    simp only [Function.comp_apply]
    congr 1
    omega
  rw [List.range_succ_eq_map, List.map_cons, List.map_map, List.map_congr_left h]
  simp

theorem retryRun_all_fail (att : Nat → Option JVal) (jit : Nat → ℚ)
    (h : ∀ i, att i = none) :
    ∀ (fuel start : Nat),
      retryRun att jit fuel start =
        ⟨none, (List.range fuel).map (fun i => backoff jit (start + i)), fuel⟩ := by
  intro fuel
  induction fuel with
  | zero => intro start; simp [retryRun]
  | succ f ih =>
    intro start
    rw [delayShift]
    simp only [retryRun, h start, ih (start + 1)]

theorem retryRun_succeeds (att : Nat → Option JVal) (jit : Nat → ℚ) (v : JVal) :
    ∀ (j fuel start : Nat), (∀ i, i < j → att (start + i) = none) →
      att (start + j) = some v → j < fuel →
      retryRun att jit fuel start =
        ⟨some v, (List.range j).map (fun i => backoff jit (start + i)), j + 1⟩ := by
  intro j
  induction j with
  | zero =>
    intro fuel start _ hv hfuel
    match fuel, hfuel with
    | f + 1, _ =>
      simp only [Nat.add_zero] at hv
      simp [retryRun, hv]
  | succ j ih =>
    intro fuel start hfail hv hfuel
    match fuel, hfuel with
    | f + 1, hfuel =>
      have h0 : att start = none := by
        have := hfail 0 (Nat.succ_pos j)
        simpa using this
      have hfail' : ∀ i, i < j → att (start + 1 + i) = none := by
        intro i hi
        have h := hfail (i + 1) (by omega)
        have e : start + (i + 1) = start + 1 + i := by omega
        rwa [e] at h
      have hv' : att (start + 1 + j) = some v := by
        have e : start + (j + 1) = start + 1 + j := by omega
        rwa [e] at hv
      rw [delayShift]
      simp only [retryRun, h0]
      rw [ih f (start + 1) hfail' hv' (by omega)]

/-- C1: the retry controller, given any zero-argument attempt function and
retry budget, (a) when the attempt fails exactly twice and then succeeds
(the budget, e.g. the default 5, admitting a third attempt), returns the
success value after exactly two backoff delays of durations
`min(1.5^0 + jitter, 30)` and `min(1.5^1 + jitter, 30)`; and (b) when every
attempt fails, returns the `None` sentinel after exactly `retries` attempts.
The controller is a total function, never propagating an exception. -/
theorem retry_controller_spec (att : Nat → Option JVal) (jit : Nat → ℚ)
    (retries : Nat) (v : JVal) :
    (att 0 = none → att 1 = none → att 2 = some v → 3 ≤ retries →
      tag_card_sync att jit retries =
        ⟨some v, [backoff jit 0, backoff jit 1], 3⟩) ∧
    ((∀ i, att i = none) →
      tag_card_sync att jit retries =
        ⟨none, (List.range retries).map (backoff jit), retries⟩) := by
  constructor
  · intro h0 h1 h2 h3
    have := retryRun_succeeds att jit v 2 retries 0
      (fun i hi => by interval_cases i <;> simp [h0, h1])
      (by simpa using h2) (by omega)
    rw [tag_card_sync, this]
    norm_num [List.range_succ]
  · intro h
    have := retryRun_all_fail att jit h retries 0
    rw [tag_card_sync, this]
    simp

/-- Witness for C1 at a concrete attempt function: failing twice then
succeeding with budget 5 gives the success value after two delays, and an
always-failing attempt with budget 5 gives `None` after 5 attempts. -/
theorem retry_controller_spec_witness :
    tag_card_sync (fun i => if i < 2 then none else some (jobj [])) (fun _ => 0) 5 =
      ⟨some (jobj []), [backoff (fun _ => 0) 0, backoff (fun _ => 0) 1], 3⟩ ∧
    tag_card_sync (fun _ => none) (fun _ => 0) 5 =
      ⟨none, (List.range 5).map (backoff (fun _ => 0)), 5⟩ := by
  constructor
  · exact (retry_controller_spec (fun i => if i < 2 then none else some (jobj []))
      (fun _ => 0) 5 (jobj [])).1 rfl rfl rfl (by omega)
  · exact (retry_controller_spec (fun _ => none) (fun _ => 0) 5 (jobj [])).2
      (fun _ => rfl)

/-- C10: a falsy JSON parse (exactly `{}`, `[]`, `null`, `0`, `false`, `""`)
is a success for the retry controller — wherever the loop stands, it returns
at once, with no further attempt and no backoff — yet the sink write of
sequential/async mode and of the batch-mode inner loop leaves the whole sink
state unchanged: nothing is written, no counter advances, the card is
silently dropped. -/
theorem falsy_result_dropped :
    (∀ v : JVal, truthy v = false ↔
      (v = jobj [] ∨ v = jarr [] ∨ v = jnull ∨ v = jnum 0 ∨
        v = jbool false ∨ v = jstr "")) ∧
    (∀ (v : JVal) (att : Nat → Option JVal) (jit : Nat → ℚ) (fuel start : Nat),
      truthy v = false → att start = some v → 0 < fuel →
      retryRun att jit fuel start = ⟨some v, [], 1⟩) ∧
    (∀ (v : JVal) (dumps : JVal → String) (split : Nat) (s : SinkState),
      truthy v = false → sinkWrite dumps split s (some v) = s) ∧
    (∀ (v : JVal) (dumps : JVal → String) (s : SinkState),
      truthy v = false → batchWriteOne dumps s (some v) = s) := by
  refine ⟨?_, ?_, ?_, ?_⟩
  · intro v
    cases v with
    | jnull => simp [truthy]
    | jbool b => cases b <;> simp [truthy]
    | jnum n => simp [truthy]
    | jstr s => simp [truthy]
    | jarr l => cases l <;> simp [truthy]
    | jobj l => cases l <;> simp [truthy]
  · intro v att jit fuel start hf hv hfuel
    match fuel, hfuel with
    | f + 1, _ => simp [retryRun, hv]
  · intro v dumps split s hf
    simp [sinkWrite, hf]
  · intro v dumps s hf
    simp [batchWriteOne, hf]

/-- Witness for C10 at the concrete falsy value `{}`: the controller returns
it at once and the sink drops it. -/
theorem falsy_result_dropped_witness :
    retryRun (fun _ => some (jobj [])) (fun _ => 0) 5 0 = ⟨some (jobj []), [], 1⟩ ∧
    sinkWrite pyDumps 2 sink0 (some (jobj [])) = sink0 ∧
    batchWriteOne pyDumps sink0 (some (jobj [])) = sink0 := by
  refine ⟨?_, ?_, ?_⟩
  · exact falsy_result_dropped.2.1 (jobj []) (fun _ => some (jobj []))
      (fun _ => 0) 5 0 rfl rfl (by omega)
  · exact falsy_result_dropped.2.2.1 (jobj []) pyDumps 2 sink0 rfl
  · exact falsy_result_dropped.2.2.2 (jobj []) pyDumps sink0 rfl

/-! ### Color-identity filter (C9) -/

theorem mem_color_filter_BR (colorless : Bool) (cards : List Card) (c : Card) :
    c ∈ color_identity_filter [MColor.B, MColor.R] colorless cards ↔
      c ∈ cards ∧ ((colorless = true ∧ c.color_identity.toFinset = ∅) ∨
        c.color_identity.toFinset = {MColor.B, MColor.R}) := by
  have h1 : (([MColor.B, MColor.R].toFinset : Finset MColor) ≠ ∅) := by decide
  have h2 : ([MColor.B, MColor.R].toFinset : Finset MColor) =
      {MColor.B, MColor.R} := by decide
  rw [color_identity_filter, if_neg (by simp)]
  simp only [List.mem_filter, Bool.or_eq_true, Bool.and_eq_true,
    decide_eq_true_eq, h1, h2]
  tauto

/-- C9: with the exact-match target set `{B, R}`, the color-identity filter
keeps a card whose identity is exactly `{B, R}`, drops cards with identities
`{B}` and `{B, R, W}`, and keeps a card with empty identity exactly when the
colorless flag is set. -/
theorem color_filter_exact_match (colorless : Bool) (cards : List Card)
    (c : Card) (hc : c ∈ cards) :
    (c.color_identity.toFinset = {MColor.B, MColor.R} →
      c ∈ color_identity_filter [MColor.B, MColor.R] colorless cards) ∧
    (c.color_identity.toFinset = {MColor.B} →
      c ∉ color_identity_filter [MColor.B, MColor.R] colorless cards) ∧
    (c.color_identity.toFinset = {MColor.B, MColor.R, MColor.W} →
      c ∉ color_identity_filter [MColor.B, MColor.R] colorless cards) ∧
    (c.color_identity.toFinset = ∅ →
      (c ∈ color_identity_filter [MColor.B, MColor.R] colorless cards ↔
        colorless = true)) := by
  refine ⟨?_, ?_, ?_, ?_⟩ <;> intro h
  · exact (mem_color_filter_BR colorless cards c).mpr ⟨hc, Or.inr h⟩
  · intro hmem
    have := ((mem_color_filter_BR colorless cards c).mp hmem).2
    rw [h] at this
    rcases this with ⟨_, habs⟩ | habs <;> exact absurd habs (by decide)
  · intro hmem
    have := ((mem_color_filter_BR colorless cards c).mp hmem).2
    rw [h] at this
    rcases this with ⟨_, habs⟩ | habs <;> exact absurd habs (by decide)
  · rw [mem_color_filter_BR]
    have : ((∅ : Finset MColor) = {MColor.B, MColor.R}) = False := by
      simp only [eq_iff_iff, iff_false]
      decide
    simp [hc, h, this]

/-- A card with color identity exactly `{B, R}`. -/
def cBR : Card := ⟨"br", none, none, [MColor.B, MColor.R]⟩

/-- A card with color identity `{B}`. -/
def cB : Card := ⟨"b", none, none, [MColor.B]⟩

/-- A card with color identity `{B, R, W}`. -/
def cBRW : Card := ⟨"brw", none, none, [MColor.B, MColor.R, MColor.W]⟩

/-- A colorless card. -/
def cColorless : Card := ⟨"cl", none, none, []⟩

/-- The four-card fixture of the color-filter scenario. -/
def testCards : List Card := [cBR, cB, cBRW, cColorless]

/-- Witness for C9 at concrete cards: the `{B,R}` card is kept, the `{B}`,
`{B,R,W}` cards are dropped, and the colorless card with the flag off is
kept exactly when `false = true`. -/
theorem color_filter_exact_match_witness :
    cBR ∈ color_identity_filter [MColor.B, MColor.R] false testCards ∧
    cB ∉ color_identity_filter [MColor.B, MColor.R] false testCards ∧
    cBRW ∉ color_identity_filter [MColor.B, MColor.R] false testCards ∧
    (cColorless ∈ color_identity_filter [MColor.B, MColor.R] false testCards ↔
      false = true) := by
  refine ⟨?_, ?_, ?_, ?_⟩
  · exact (color_filter_exact_match false testCards cBR (by decide)).1 (by decide)
  · exact (color_filter_exact_match false testCards cB (by decide)).2.1 (by decide)
  · exact (color_filter_exact_match false testCards cBRW (by decide)).2.2.1 (by decide)
  · exact (color_filter_exact_match false testCards cColorless (by decide)).2.2.2
      (by decide)

/-! ### Resume scan on a corrupt line (C8) -/

theorem resumeScan_corrupt (loads : String → Option JVal) :
    ∀ (lines : List String) (l : String), l ∈ lines → pyStrip l ≠ "" →
      loads (pyStrip l) = none → resumeScan loads lines = none := by
  intro lines
  induction lines with
  | nil => intro l hl; exact absurd hl (List.not_mem_nil l)
  | cons h t ih =>
    intro l hl hblank hbad
    rcases List.mem_cons.mp hl with rfl | hmem
    · simp only [resumeScan, if_neg hblank, hbad]
    · by_cases hb : pyStrip h = ""
      · simpa [resumeScan, hb] using ih l hmem hblank hbad
      · have ht := ih l hmem hblank hbad
        cases hload : loads (pyStrip h) with
        | none => simp [resumeScan, hb, hload]
        | some v =>
          cases hoid : resultGetOid v with
          | none => simp [resumeScan, hb, hload, hoid]
          | some oid => simp [resumeScan, hb, hload, hoid, ht]

/-- C8: if any nonblank line of the existing output file fails to parse as
JSON during the resume scan, the scan raises, the exception handler catches
it, and the input card set is left completely unfiltered — no collected
oracle_ids are applied. -/
theorem resume_corrupt_aborts (loads : String → Option JVal)
    (pre post : List String) (l : String) (cards : List Card)
    (hblank : pyStrip l ≠ "") (hbad : loads (pyStrip l) = none) :
    applyResume loads (pre ++ l :: post) cards = cards := by
  have hscan := resumeScan_corrupt loads (pre ++ l :: post) l (by simp) hblank hbad
  simp [applyResume, hscan]

/-- Witness for C8: a store whose first line is a good record and whose
second line is corrupt leaves even an already-recorded card in the input. -/
theorem resume_corrupt_aborts_witness :
    applyResume pyLoads ["\x7b\"oracle_id\": \"abc\"\x7d", "oops not json"]
      [⟨"x", some "abc", some "t", []⟩] =
      [⟨"x", some "abc", some "t", []⟩] := by
  have h := resume_corrupt_aborts pyLoads ["\x7b\"oracle_id\": \"abc\"\x7d"] []
    "oops not json" [⟨"x", some "abc", some "t", []⟩] (by decide) rfl
  simpa using h

/-! ### Response extractor (C2) -/

theorem firstBrace_lt_length : ∀ (cs : List Char) (i : Nat),
    firstBrace cs = some i → i < cs.length := by
  intro cs
  induction cs with
  | nil => intro i h; simp [firstBrace] at h
  | cons c rest ih =>
    intro i h
    rw [firstBrace] at h
    by_cases hc : c = '\x7b' ∨ c = '['
    · rw [if_pos hc] at h
      cases h
      simp
    · rw [if_neg hc] at h
      cases hfb : firstBrace rest with
      | none => rw [hfb] at h; simp at h
      | some j =>
        rw [hfb] at h
        simp at h
        have := ih j hfb
        simp only [List.length_cons]
        omega

theorem scanEnds_all_fail (ok : String → Bool) (t : String) (first : Nat) :
    ∀ k, (∀ e, first < e → e ≤ first + k → ok (pySlice t first e) = false) →
      scanEnds ok t first k = t := by
  intro k
  induction k with
  | zero => intro _; rfl
  | succ k ih =>
    intro h
    rw [scanEnds]
    rw [if_neg (by rw [h (first + k + 1) (by omega) (by omega)]; exact Bool.false_ne_true)]
    exact ih fun e he1 he2 => h e he1 (by omega)

theorem scanEnds_finds (ok : String → Bool) (t : String) (first E : Nat)
    (hE1 : first < E) (hok : ok (pySlice t first E) = true) :
    ∀ k, E ≤ first + k →
      (∀ e, E < e → e ≤ first + k → ok (pySlice t first e) = false) →
      scanEnds ok t first k = pySlice t first E := by
  intro k
  induction k with
  | zero => intro hk; omega
  | succ k ih =>
    intro hk h
    rw [scanEnds]
    by_cases hcase : E = first + k + 1
    · rw [if_pos (by rw [← hcase]; exact hok)]
      rw [hcase]
    · rw [if_neg (by
        rw [h (first + k + 1) (by omega) (by omega)]
        exact Bool.false_ne_true)]
      exact ih (by omega) fun e he1 he2 => h e he1 (by omega)

/-- C2 counterexample: on the input `"  not json at all  "`, which contains
no `\x7b` or `[`, `clean_json` returns the stripped text, not the original
text unmodified, contradicting steps (2)/(4) of the claim. -/
theorem clean_json_counterexample :
    jsonOk (pyStrip "  not json at all  ") = false ∧
    firstBrace (pyStrip "  not json at all  ").data = none ∧
    clean_json jsonOk "  not json at all  " = "not json at all" ∧
    "not json at all" ≠ "  not json at all  " := by
  exact ⟨rfl, rfl, rfl, by decide⟩

/-- C2 (amended): `clean_json` (1) returns the trimmed text when it parses as
JSON; (2) when it does not and no `\x7b` or `[` occurs, returns the trimmed
(not original) text; (3) otherwise returns `text[start:end]` for the largest
end position (scanning from the end of the trimmed text backward to just
after the start position) whose substring parses; (4) returns the trimmed
text when no candidate parses.  In particular the extraction from
`"Sure! \x7b\"a\":1\x7d thanks"` parses to the JSON object `\x7b"a":1\x7d`,
`"not json at all"` is returned unchanged, and a full JSON array input is
returned as-is. -/
theorem clean_json_spec :
    (∀ (ok : String → Bool) (txt : String),
      (ok (pyStrip txt) = true → clean_json ok txt = pyStrip txt) ∧
      (ok (pyStrip txt) = false → firstBrace (pyStrip txt).data = none →
        clean_json ok txt = pyStrip txt) ∧
      (∀ first, ok (pyStrip txt) = false →
        firstBrace (pyStrip txt).data = some first →
        (∀ E, first < E → E ≤ (pyStrip txt).length →
          ok (pySlice (pyStrip txt) first E) = true →
          (∀ e, E < e → e ≤ (pyStrip txt).length →
            ok (pySlice (pyStrip txt) first e) = false) →
          clean_json ok txt = pySlice (pyStrip txt) first E) ∧
        ((∀ e, first < e → e ≤ (pyStrip txt).length →
          ok (pySlice (pyStrip txt) first e) = false) →
          clean_json ok txt = pyStrip txt))) ∧
    clean_json jsonOk "Sure! \x7b\"a\":1\x7d thanks" = "\x7b\"a\":1\x7d " ∧
    pyLoads (clean_json jsonOk "Sure! \x7b\"a\":1\x7d thanks") =
      some (jobj [("a", jnum 1)]) ∧
    clean_json jsonOk "not json at all" = "not json at all" ∧
    clean_json jsonOk "[\x7b\"a\":1\x7d,\x7b\"b\":2\x7d]" =
      "[\x7b\"a\":1\x7d,\x7b\"b\":2\x7d]" := by
  refine ⟨?_, rfl, rfl, rfl, rfl⟩
  intro ok txt
  have hneg : ∀ h : ok (pyStrip txt) = false, ¬(ok (pyStrip txt) = true) := by
    intro h he
    rw [h] at he
    exact Bool.false_ne_true he
  refine ⟨?_, ?_, ?_⟩
  · intro hok
    rw [clean_json, cleanJsonBody, if_pos hok]
  · intro hok hfb
    rw [clean_json, cleanJsonBody, if_neg (hneg hok), hfb]
  · intro first hok hfb
    have hlt : first < (pyStrip txt).length :=
      firstBrace_lt_length (pyStrip txt).data first hfb
    constructor
    · intro E hE1 hE2 hEok hmax
      rw [clean_json, cleanJsonBody, if_neg (hneg hok), hfb]
      exact scanEnds_finds ok (pyStrip txt) first E hE1 hEok _
        (by omega) (fun e he1 he2 => hmax e he1 (by omega))
    · intro hall
      rw [clean_json, cleanJsonBody, if_neg (hneg hok), hfb]
      exact scanEnds_all_fail ok (pyStrip txt) first _
        (fun e he1 he2 => hall e he1 (by omega))

/-- Witness for C2 (amended): the universally quantified part applied at the
concrete oracle `jsonOk` and input `"Sure! \x7b\"a\":1\x7d thanks"`, with end
position 14 — the largest end whose substring parses — yielding
`"\x7b\"a\":1\x7d "`. -/
theorem clean_json_spec_witness :
    clean_json jsonOk "Sure! \x7b\"a\":1\x7d thanks" =
      pySlice (pyStrip "Sure! \x7b\"a\":1\x7d thanks") 6 14 := by
  have hlen : (pyStrip "Sure! \x7b\"a\":1\x7d thanks").length = 20 := rfl
  refine ((clean_json_spec.1 jsonOk "Sure! \x7b\"a\":1\x7d thanks").2.2 6
    rfl rfl).1 14 (by omega) (by rw [hlen]; omega) rfl ?_
  intro e h1 h2
  rw [hlen] at h2
  interval_cases e <;> rfl

/-! ### Output sink invariants -/

/-- All files past the current file index are still empty. -/
def BeyondEmpty (s : SinkState) : Prop :=
  ∀ i, s.file_index < i → s.files i = []

theorem beyondEmpty_sink0 : BeyondEmpty sink0 := by
  intro i _
  rfl

theorem flatMap_congr_elts {α β : Type} (l : List α) (f g : α → List β)
    (h : ∀ a ∈ l, f a = g a) : l.flatMap f = l.flatMap g := by
  induction l with
  | nil => rfl
  | cons a t ih =>
    simp only [List.flatMap_cons]
    rw [h a (by simp), ih fun b hb => h b (by simp [hb])]

theorem sinkRollover_beyond (split : Nat) (s : SinkState) (hb : BeyondEmpty s) :
    BeyondEmpty (sinkRollover split s) := by
  intro i hi
  rw [sinkRollover] at hi ⊢
  by_cases hc : 0 < split ∧ split ≤ s.file_count
  · rw [if_pos hc] at hi ⊢
    have hi' : s.file_index + 1 < i := hi
    exact hb i (by omega)
  · rw [if_neg hc] at hi ⊢
    exact hb i hi

theorem sinkRollover_files (split : Nat) (s : SinkState) :
    (sinkRollover split s).files = s.files := by
  rw [sinkRollover]
  split <;> rfl

theorem sinkRollover_index_ge (split : Nat) (s : SinkState) :
    s.file_index ≤ (sinkRollover split s).file_index := by
  rw [sinkRollover]
  split <;> simp

theorem sinkAppend_beyond (s : SinkState) (line : String) (hb : BeyondEmpty s) :
    BeyondEmpty (sinkAppend s line) := by
  intro i hi
  simp only [sinkAppend] at hi ⊢
  rw [if_neg (by omega)]
  exact hb i hi

theorem sinkWrite_beyond (dumps : JVal → String) (split : Nat) (s : SinkState)
    (r : Option JVal) (hb : BeyondEmpty s) :
    BeyondEmpty (sinkWrite dumps split s r) := by
  cases r with
  | none => exact hb
  | some v =>
    rw [sinkWrite]
    by_cases ht : truthy v
    · rw [if_pos ht]
      exact sinkAppend_beyond _ _ (sinkRollover_beyond split s hb)
    · rw [if_neg ht]
      exact hb

theorem flatTo_sinkAppend (s : SinkState) (line : String) :
    flatTo (sinkAppend s line) = flatTo s ++ [line] := by
  simp only [flatTo, sinkAppend, List.range_succ, List.flatMap_append,
    List.flatMap_cons, List.flatMap_nil]
  have hcongr : ∀ j ∈ List.range s.file_index,
      (if j = s.file_index then s.files j ++ [line] else s.files j) = s.files j := by
    intro j hj
    rw [if_neg (by have := List.mem_range.mp hj; omega)]
  rw [flatMap_congr_elts _ _ _ hcongr]
  simp [List.append_assoc]

theorem flatTo_sinkRollover (split : Nat) (s : SinkState) (hb : BeyondEmpty s) :
    flatTo (sinkRollover split s) = flatTo s := by
  rw [sinkRollover]
  split
  · simp only [flatTo, List.range_succ, List.flatMap_append, List.flatMap_cons,
      List.flatMap_nil]
    rw [hb (s.file_index + 1) (by omega)]
    simp
  · rfl

theorem flatTo_sinkWrite (dumps : JVal → String) (split : Nat) (s : SinkState)
    (r : Option JVal) (hb : BeyondEmpty s) :
    flatTo (sinkWrite dumps split s r) =
      flatTo s ++ (resLine dumps r).toList := by
  cases r with
  | none => simp [sinkWrite, resLine]
  | some v =>
    rw [sinkWrite]
    by_cases ht : truthy v
    · rw [if_pos ht, flatTo_sinkAppend, flatTo_sinkRollover split s hb]
      simp [resLine, ht]
    · rw [if_neg ht]
      simp [resLine, ht]

theorem runSeq_cons (dumps : JVal → String) (outcome : Card → Option JVal)
    (split : Nat) (c : Card) (cs : List Card) (s : SinkState) :
    runSeq dumps outcome split (c :: cs) s =
      runSeq dumps outcome split cs (sinkWrite dumps split s (outcome c)) := rfl

theorem newLines_cons (dumps : JVal → String) (outcome : Card → Option JVal)
    (c : Card) (cs : List Card) :
    newLines dumps outcome (c :: cs) =
      (resLine dumps (outcome c)).toList ++ newLines dumps outcome cs := by
  rw [newLines, newLines, List.filterMap_cons]
  cases h : resLine dumps (outcome c) <;> simp [h]

theorem runSeq_beyond (dumps : JVal → String) (outcome : Card → Option JVal)
    (split : Nat) : ∀ (cards : List Card) (s : SinkState), BeyondEmpty s →
      BeyondEmpty (runSeq dumps outcome split cards s) := by
  intro cards
  induction cards with
  | nil => intro s hb; exact hb
  | cons c cs ih =>
    intro s hb
    rw [runSeq_cons]
    exact ih _ (sinkWrite_beyond dumps split s (outcome c) hb)

theorem flatTo_runSeq (dumps : JVal → String) (outcome : Card → Option JVal)
    (split : Nat) : ∀ (cards : List Card) (s : SinkState), BeyondEmpty s →
      flatTo (runSeq dumps outcome split cards s) =
        flatTo s ++ newLines dumps outcome cards := by
  intro cards
  induction cards with
  | nil => intro s _; simp [runSeq, newLines]
  | cons c cs ih =>
    intro s hb
    rw [runSeq_cons, ih _ (sinkWrite_beyond dumps split s (outcome c) hb),
      flatTo_sinkWrite dumps split s (outcome c) hb, newLines_cons,
      List.append_assoc]

theorem flatTo_sink0 : flatTo sink0 = [] := rfl

theorem sinkWrite_index_ge (dumps : JVal → String) (split : Nat) (s : SinkState)
    (r : Option JVal) : s.file_index ≤ (sinkWrite dumps split s r).file_index := by
  cases r with
  | none => exact Nat.le_refl _
  | some v =>
    rw [sinkWrite]
    by_cases ht : truthy v
    · rw [if_pos ht]
      exact sinkRollover_index_ge split s
    · rw [if_neg ht]

theorem sinkWrite_split0_index (dumps : JVal → String) (s : SinkState)
    (r : Option JVal) : (sinkWrite dumps 0 s r).file_index = s.file_index := by
  cases r with
  | none => rfl
  | some v =>
    rw [sinkWrite]
    by_cases ht : truthy v
    · rw [if_pos ht]
      show (sinkRollover 0 s).file_index = s.file_index
      rw [sinkRollover, if_neg (by omega)]
    · rw [if_neg ht]

theorem runSeq_split0_index (dumps : JVal → String) (outcome : Card → Option JVal) :
    ∀ (cards : List Card) (s : SinkState),
      (runSeq dumps outcome 0 cards s).file_index = s.file_index := by
  intro cards
  induction cards with
  | nil => intro s; rfl
  | cons c cs ih =>
    intro s
    rw [runSeq_cons, ih, sinkWrite_split0_index]

theorem flatTo_eq_file0 (s : SinkState) (h : s.file_index = 0) :
    flatTo s = s.files 0 := by
  rw [flatTo, h]
  show ([0] : List Nat).flatMap s.files = s.files 0
  simp

/-! ### Append-only discipline -/

theorem sinkWrite_append_only (dumps : JVal → String) (split : Nat)
    (s : SinkState) (r : Option JVal) (i : Nat) :
    ∃ t, (sinkWrite dumps split s r).files i = s.files i ++ t := by
  cases r with
  | none => exact ⟨[], by simp [sinkWrite]⟩
  | some v =>
    rw [sinkWrite]
    by_cases ht : truthy v
    · rw [if_pos ht]
      show ∃ t, (sinkAppend (sinkRollover split s) (dumps v)).files i = _
      rw [sinkAppend]
      by_cases hi : i = (sinkRollover split s).file_index
      · refine ⟨[dumps v], ?_⟩
        simp only [if_pos hi, sinkRollover_files]
      · refine ⟨[], ?_⟩
        simp only [if_neg hi, sinkRollover_files, List.append_nil]
    · rw [if_neg ht]
      exact ⟨[], by simp⟩

theorem runSeq_append_only (dumps : JVal → String) (outcome : Card → Option JVal)
    (split : Nat) : ∀ (cards : List Card) (s : SinkState) (i : Nat),
      ∃ t, (runSeq dumps outcome split cards s).files i = s.files i ++ t := by
  intro cards
  induction cards with
  | nil => intro s i; exact ⟨[], by simp [runSeq]⟩
  | cons c cs ih =>
    intro s i
    obtain ⟨t2, h2⟩ := ih (sinkWrite dumps split s (outcome c)) i
    obtain ⟨t1, h1⟩ := sinkWrite_append_only dumps split s (outcome c) i
    refine ⟨t1 ++ t2, ?_⟩
    rw [runSeq_cons, h2, h1, List.append_assoc]

theorem batchWriteOne_append_only (dumps : JVal → String) (s : SinkState)
    (r : Option JVal) (i : Nat) :
    ∃ t, (batchWriteOne dumps s r).files i = s.files i ++ t := by
  cases r with
  | none => exact ⟨[], by simp [batchWriteOne]⟩
  | some v =>
    rw [batchWriteOne]
    by_cases ht : truthy v
    · rw [if_pos ht, sinkAppend]
      by_cases hi : i = s.file_index
      · exact ⟨[dumps v], by simp only [if_pos hi]⟩
      · exact ⟨[], by simp only [if_neg hi, List.append_nil]⟩
    · rw [if_neg ht]
      exact ⟨[], by simp⟩

theorem batchFold_append_only (dumps : JVal → String) :
    ∀ (rs : List (Option JVal)) (s : SinkState) (i : Nat),
      ∃ t, (rs.foldl (batchWriteOne dumps) s).files i = s.files i ++ t := by
  intro rs
  induction rs with
  | nil => intro s i; exact ⟨[], by simp⟩
  | cons r rest ih =>
    intro s i
    obtain ⟨t2, h2⟩ := ih (batchWriteOne dumps s r) i
    obtain ⟨t1, h1⟩ := batchWriteOne_append_only dumps s r i
    refine ⟨t1 ++ t2, ?_⟩
    rw [List.foldl_cons, h2, h1, List.append_assoc]

theorem runBatchMode_append_only (dumps : JVal → String) (split : Nat) :
    ∀ (brs : List (List (Option JVal))) (s : SinkState) (i : Nat),
      ∃ t, (runBatchMode dumps split brs s).files i = s.files i ++ t := by
  intro brs
  induction brs with
  | nil => intro s i; exact ⟨[], by simp [runBatchMode]⟩
  | cons rs rest ih =>
    intro s i
    obtain ⟨t2, h2⟩ :=
      ih ((rs.foldl (batchWriteOne dumps) (sinkRollover split s))) i
    obtain ⟨t1, h1⟩ := batchFold_append_only dumps rs (sinkRollover split s) i
    refine ⟨t1 ++ t2, ?_⟩
    show (runBatchMode dumps split rest _).files i = _
    rw [h2, h1, sinkRollover_files, List.append_assoc]

/-! ### Batch-mode flatten -/

theorem batchWriteOne_beyond (dumps : JVal → String) (s : SinkState)
    (r : Option JVal) (hb : BeyondEmpty s) :
    BeyondEmpty (batchWriteOne dumps s r) := by
  cases r with
  | none => exact hb
  | some v =>
    rw [batchWriteOne]
    by_cases ht : truthy v
    · rw [if_pos ht]
      exact sinkAppend_beyond s (dumps v) hb
    · rw [if_neg ht]
      exact hb

theorem flatTo_batchWriteOne (dumps : JVal → String) (s : SinkState)
    (r : Option JVal) :
    flatTo (batchWriteOne dumps s r) = flatTo s ++ (resLine dumps r).toList := by
  cases r with
  | none => simp [batchWriteOne, resLine]
  | some v =>
    rw [batchWriteOne]
    by_cases ht : truthy v
    · rw [if_pos ht, flatTo_sinkAppend]
      simp [resLine, ht]
    · rw [if_neg ht]
      simp [resLine, ht]

theorem flatTo_batchFold (dumps : JVal → String) :
    ∀ (rs : List (Option JVal)) (s : SinkState),
      flatTo (rs.foldl (batchWriteOne dumps) s) =
        flatTo s ++ rs.filterMap (resLine dumps) := by
  intro rs
  induction rs with
  | nil => intro s; simp
  | cons r rest ih =>
    intro s
    rw [List.foldl_cons, ih, flatTo_batchWriteOne, List.filterMap_cons]
    cases h : resLine dumps r <;> simp [h]

theorem batchFold_beyond (dumps : JVal → String) :
    ∀ (rs : List (Option JVal)) (s : SinkState), BeyondEmpty s →
      BeyondEmpty (rs.foldl (batchWriteOne dumps) s) := by
  intro rs
  induction rs with
  | nil => intro s hb; exact hb
  | cons r rest ih =>
    intro s hb
    rw [List.foldl_cons]
    exact ih _ (batchWriteOne_beyond dumps s r hb)

theorem flatTo_runBatchMode (dumps : JVal → String) (split : Nat) :
    ∀ (brs : List (List (Option JVal))) (s : SinkState), BeyondEmpty s →
      flatTo (runBatchMode dumps split brs s) =
        flatTo s ++ batchLines dumps brs := by
  intro brs
  induction brs with
  | nil => intro s _; simp [runBatchMode, batchLines]
  | cons rs rest ih =>
    intro s hb
    show flatTo (runBatchMode dumps split rest _) = _
    rw [ih _ (batchFold_beyond dumps rs _ (sinkRollover_beyond split s hb)),
      flatTo_batchFold, flatTo_sinkRollover split s hb]
    simp [batchLines, List.append_assoc]

/-! ### Split bound (C4) -/

/-- The per-write split invariant: the current file holds exactly
`file_count` lines, the counter never exceeds the threshold, files past the
current index are untouched, and no file holds more than `split` lines. -/
def SinkBound (split : Nat) (s : SinkState) : Prop :=
  s.file_count = (s.files s.file_index).length ∧
  s.file_count ≤ split ∧
  BeyondEmpty s ∧
  ∀ i, (s.files i).length ≤ split

theorem sinkBound_sink0 (split : Nat) : SinkBound split sink0 := by
  refine ⟨rfl, Nat.zero_le _, beyondEmpty_sink0, fun i => Nat.zero_le _⟩

theorem sinkAppend_file_index (s : SinkState) (l : String) :
    (sinkAppend s l).file_index = s.file_index := rfl

theorem sinkAppend_file_count (s : SinkState) (l : String) :
    (sinkAppend s l).file_count = s.file_count + 1 := rfl

theorem sinkAppend_files_self (s : SinkState) (l : String) :
    (sinkAppend s l).files s.file_index = s.files s.file_index ++ [l] := by
  simp [sinkAppend]

theorem sinkAppend_files_ne (s : SinkState) (l : String) (i : Nat)
    (h : i ≠ s.file_index) : (sinkAppend s l).files i = s.files i := by
  simp [sinkAppend, h]

theorem sinkBound_append (split : Nat) (s : SinkState) (l : String)
    (h1 : s.file_count = (s.files s.file_index).length)
    (h2 : s.file_count + 1 ≤ split) (h3 : BeyondEmpty s)
    (h4 : ∀ i, (s.files i).length ≤ split) :
    SinkBound split (sinkAppend s l) := by
  refine ⟨?_, ?_, sinkAppend_beyond s l h3, ?_⟩
  · rw [sinkAppend_file_count, sinkAppend_file_index, sinkAppend_files_self,
      List.length_append, ← h1]
    rfl
  · rw [sinkAppend_file_count]
    exact h2
  · intro i
    by_cases hi : i = s.file_index
    · rw [hi, sinkAppend_files_self, List.length_append, ← h1]
      simpa using h2
    · rw [sinkAppend_files_ne s l i hi]
      exact h4 i

theorem sinkWrite_bound (dumps : JVal → String) (split : Nat)
    (hpos : 0 < split) (s : SinkState) (r : Option JVal)
    (h : SinkBound split s) : SinkBound split (sinkWrite dumps split s r) := by
  obtain ⟨h1, h2, h3, h4⟩ := h
  cases r with
  | none => exact ⟨h1, h2, h3, h4⟩
  | some v =>
    rw [sinkWrite]
    by_cases ht : truthy v
    · rw [if_pos ht]
      by_cases hc : split ≤ s.file_count
      · have hri : (sinkRollover split s).file_index = s.file_index + 1 := by
          rw [sinkRollover, if_pos ⟨hpos, hc⟩]
        have hrc : (sinkRollover split s).file_count = 0 := by
          rw [sinkRollover, if_pos ⟨hpos, hc⟩]
        have hnew : s.files (s.file_index + 1) = [] := h3 _ (by omega)
        refine sinkBound_append split _ _ ?_ ?_
          (sinkRollover_beyond split s h3) ?_
        · rw [hrc, sinkRollover_files, hri, hnew]
          rfl
        · omega
        · intro i
          rw [sinkRollover_files]
          exact h4 i
      · have hroll : sinkRollover split s = s := by
          rw [sinkRollover, if_neg (by omega)]
        rw [hroll]
        exact sinkBound_append split s _ h1 (by omega) h3 h4
    · rw [if_neg ht]
      exact ⟨h1, h2, h3, h4⟩

theorem runSeq_bound (dumps : JVal → String) (outcome : Card → Option JVal)
    (split : Nat) (hpos : 0 < split) :
    ∀ (cards : List Card) (s : SinkState), SinkBound split s →
      SinkBound split (runSeq dumps outcome split cards s) := by
  intro cards
  induction cards with
  | nil => intro s h; exact h
  | cons c cs ih =>
    intro s h
    rw [runSeq_cons]
    exact ih _ (sinkWrite_bound dumps split hpos s (outcome c) h)

/-! ### Fixtures for concrete runs -/

/-- A minimal input card named `nm` with matching oracle id. -/
def fcard (nm : String) : Card := ⟨nm, some nm, some "t", []⟩

/-- The tag record the model is expected to return for a card. -/
def tagOf (c : Card) : JVal := jobj [("oracle_id", jstr c.name)]

/-- An outcome function where every remote call succeeds with the expected
record. -/
def outcomeAll : Card → Option JVal := fun c => some (tagOf c)

/-- Five input cards. -/
def fiveCards : List Card :=
  [fcard "r1", fcard "r2", fcard "r3", fcard "r4", fcard "r5"]

theorem mem_files_mem_flatTo (s : SinkState) (hb : BeyondEmpty s) (i : Nat)
    (line : String) (h : line ∈ s.files i) : line ∈ flatTo s := by
  by_cases hi : i ≤ s.file_index
  · rw [flatTo]
    exact List.mem_flatMap.mpr ⟨i, List.mem_range.mpr (by omega), h⟩
  · rw [hb i (by omega)] at h
    exact absurd h (List.not_mem_nil line)

theorem resLine_eq_some (dumps : JVal → String) (r : Option JVal) (line : String)
    (h : resLine dumps r = some line) :
    ∃ v, r = some v ∧ truthy v = true ∧ line = dumps v := by
  cases r with
  | none => simp [resLine] at h
  | some v =>
    rw [resLine] at h
    by_cases ht : truthy v
    · refine ⟨v, rfl, ht, ?_⟩
      rw [if_pos ht] at h
      exact (Option.some.inj h).symm
    · rw [if_neg ht] at h
      simp at h

/-! ### C4: file splitting -/

/-- C4 (amended): in sequential and bounded-concurrent modes the split
decision is evaluated per successful write, so with a positive threshold N
no output file ever receives more than N records; with threshold 2 and 5
successful items exactly 3 files are produced (`file_index` ends at 2)
holding 2, 2 and 1 records, and no record appears in more than one file.
In batch mode the decision is evaluated once per batch, so a file can
exceed N records (see the counterexample). -/
theorem split_threshold_per_write :
    (∀ (dumps : JVal → String) (outcome : Card → Option JVal) (split : Nat)
      (cards : List Card), 0 < split →
      ∀ i, ((runSeq dumps outcome split cards sink0).files i).length ≤ split) ∧
    ((runSeq pyDumps outcomeAll 2 fiveCards sink0).files 0 =
      ["\x7b\"oracle_id\": \"r1\"\x7d", "\x7b\"oracle_id\": \"r2\"\x7d"] ∧
    (runSeq pyDumps outcomeAll 2 fiveCards sink0).files 1 =
      ["\x7b\"oracle_id\": \"r3\"\x7d", "\x7b\"oracle_id\": \"r4\"\x7d"] ∧
    (runSeq pyDumps outcomeAll 2 fiveCards sink0).files 2 =
      ["\x7b\"oracle_id\": \"r5\"\x7d"] ∧
    (runSeq pyDumps outcomeAll 2 fiveCards sink0).file_index = 2 ∧
    (∀ i, 2 < i → (runSeq pyDumps outcomeAll 2 fiveCards sink0).files i = []) ∧
    (flatTo (runSeq pyDumps outcomeAll 2 fiveCards sink0)).Nodup) := by
  constructor
  · intro dumps outcome split cards hpos i
    exact (runSeq_bound dumps outcome split hpos cards sink0
      (sinkBound_sink0 split)).2.2.2 i
  · refine ⟨rfl, rfl, rfl, rfl, ?_, by decide⟩
    intro i hi
    have hb : BeyondEmpty (runSeq pyDumps outcomeAll 2 fiveCards sink0) :=
      runSeq_beyond pyDumps outcomeAll 2 fiveCards sink0 beyondEmpty_sink0
    exact hb i (by
      have he : (runSeq pyDumps outcomeAll 2 fiveCards sink0).file_index = 2 := rfl
      omega)

/-- Witness for C4 (amended): the universal bound applied at threshold 2 over
the five-card fixture — file 0 of that run holds at most 2 records. -/
theorem split_threshold_per_write_witness :
    ((runSeq pyDumps outcomeAll 2 fiveCards sink0).files 0).length ≤ 2 :=
  split_threshold_per_write.1 pyDumps outcomeAll 2 fiveCards (by omega) 0

/-- C4 counterexample: in batch mode with threshold 2 and 5 successful items
arriving in batches of 3 and 2, the first file receives 3 > 2 records and
only 2 files are produced — not 3 files of 2, 2, 1: the switch decision is
per batch, not per successful write. -/
theorem split_threshold_batch_counterexample :
    ((runBatchMode pyDumps 2
      [[some (tagOf (fcard "r1")), some (tagOf (fcard "r2")),
        some (tagOf (fcard "r3"))],
       [some (tagOf (fcard "r4")), some (tagOf (fcard "r5"))]]
      sink0).files 0).length = 3 ∧
    ¬(3 ≤ 2) ∧
    (runBatchMode pyDumps 2
      [[some (tagOf (fcard "r1")), some (tagOf (fcard "r2")),
        some (tagOf (fcard "r3"))],
       [some (tagOf (fcard "r4")), some (tagOf (fcard "r5"))]]
      sink0).file_index = 1 := by
  exact ⟨rfl, by omega, rfl⟩

/-! ### C6: records across restarts -/

/-- Leftover output files of a previous split run: one record in the base
file and one in the `_part2` file. -/
def prevFiles : Nat → List String :=
  fun i => if i = 0 then ["\x7b\"oracle_id\": \"r1\"\x7d"]
    else if i = 1 then ["\x7b\"oracle_id\": \"r2\"\x7d"] else []

/-- The second run of the restart scenario: resume disabled (so only the base
file is cleared), split threshold 1, same two cards succeed again. -/
def rerunState : SinkState :=
  runSeq pyDumps outcomeAll 1 [fcard "r1", fcard "r2"] ⟨clearBase prevFiles, 0, 0, 0⟩

/-- C6 counterexample: re-running from scratch with resume disabled and
splitting enabled, the `_part2` file (index 1, named differently from the
base file, hence untouched by the truncation) still holds the previous run's
record, and the rerun appends the same record after it — the store now
duplicates `\x7b"oracle_id": "r2"\x7d` across restarts. -/
theorem stale_part_file_counterexample :
    rerunState.files 0 = ["\x7b\"oracle_id\": \"r1\"\x7d"] ∧
    rerunState.files 1 =
      ["\x7b\"oracle_id\": \"r2\"\x7d", "\x7b\"oracle_id\": \"r2\"\x7d"] ∧
    get_output_filename "tagged_cards" ".jsonl" 1 = "tagged_cards_part2.jsonl" ∧
    get_output_filename "tagged_cards" ".jsonl" 0 = "tagged_cards.jsonl" := by
  exact ⟨rfl, rfl, rfl, rfl⟩

/-- C6 (amended): within a single run the sink neither loses nor duplicates
records — the final store contents are exactly the run's successful lines in
order; but at the start of a resume-disabled run only the base output file
(index 0) is truncated, and every `_partN` file keeps whatever a previous
run left in it. -/
theorem single_run_exact_store :
    (∀ (dumps : JVal → String) (outcome : Card → Option JVal) (split : Nat)
      (cards : List Card),
      flatTo (runSeq dumps outcome split cards sink0) =
        newLines dumps outcome cards) ∧
    (∀ fs : Nat → List String,
      clearBase fs 0 = [] ∧ ∀ i, i ≠ 0 → clearBase fs i = fs i) := by
  constructor
  · intro dumps outcome split cards
    rw [flatTo_runSeq dumps outcome split cards sink0 beyondEmpty_sink0,
      flatTo_sink0, List.nil_append]
  · intro fs
    exact ⟨rfl, fun i hi => by rw [clearBase, if_neg hi]⟩

/-- Witness for C6 (amended): the part-file clause applied at the concrete
leftover files — index 1 is untouched by the base-file truncation. -/
theorem single_run_exact_store_witness :
    clearBase prevFiles 1 = prevFiles 1 :=
  (single_run_exact_store.2 prevFiles).2 1 (by omega)

/-! ### C7: append-only store of dumps lines -/

/-- C7 (amended): in every execution mode the store is append-only — a run
only ever appends to existing file contents, never rewriting them — and
every line it appends is `json.dumps` of the single truthy parsed result of
one attempted card (batch mode: of one result slot of one batch), so each
line round-trips through `json.loads` as a valid JSON value.  The value,
however, need not be a JSON object (see the counterexample). -/
theorem store_append_only_valid_json :
    (∀ (dumps : JVal → String) (outcome : Card → Option JVal) (split : Nat)
      (cards : List Card) (s : SinkState) (i : Nat),
      ∃ t, (runSeq dumps outcome split cards s).files i = s.files i ++ t) ∧
    (∀ (dumps : JVal → String) (split : Nat)
      (brs : List (List (Option JVal))) (s : SinkState) (i : Nat),
      ∃ t, (runBatchMode dumps split brs s).files i = s.files i ++ t) ∧
    (∀ (loads : String → Option JVal) (dumps : JVal → String)
      (outcome : Card → Option JVal) (cards : List Card) (split : Nat),
      (∀ c ∈ cards, ∀ v, outcome c = some v → loads (dumps v) = some v) →
      ∀ i line, line ∈ (runSeq dumps outcome split cards sink0).files i →
        ∃ c v, c ∈ cards ∧ outcome c = some v ∧ truthy v = true ∧
          line = dumps v ∧ loads line = some v) ∧
    (∀ (loads : String → Option JVal) (dumps : JVal → String) (split : Nat)
      (brs : List (List (Option JVal))),
      (∀ rs ∈ brs, ∀ r ∈ rs, ∀ v, r = some v → loads (dumps v) = some v) →
      ∀ i line, line ∈ (runBatchMode dumps split brs sink0).files i →
        ∃ rs r v, rs ∈ brs ∧ r ∈ rs ∧ r = some v ∧ truthy v = true ∧
          line = dumps v ∧ loads line = some v) := by
  refine ⟨runSeq_append_only, runBatchMode_append_only, ?_, ?_⟩
  · intro loads dumps outcome cards split hrt i line hline
    have hb : BeyondEmpty (runSeq dumps outcome split cards sink0) :=
      runSeq_beyond dumps outcome split cards sink0 beyondEmpty_sink0
    have hmem : line ∈ newLines dumps outcome cards := by
      have := mem_files_mem_flatTo _ hb i line hline
      rwa [flatTo_runSeq dumps outcome split cards sink0 beyondEmpty_sink0,
        flatTo_sink0, List.nil_append] at this
    obtain ⟨c, hc, hres⟩ := List.mem_filterMap.mp hmem
    obtain ⟨v, hv, ht, hline'⟩ := resLine_eq_some dumps (outcome c) line hres
    exact ⟨c, v, hc, hv, ht, hline', hline' ▸ hrt c hc v hv⟩
  · intro loads dumps split brs hrt i line hline
    have hb : BeyondEmpty (runBatchMode dumps split brs sink0) := by
      have : ∀ (bs : List (List (Option JVal))) (s : SinkState), BeyondEmpty s →
          BeyondEmpty (runBatchMode dumps split bs s) := by
        intro bs
        induction bs with
        | nil => intro s hs; exact hs
        | cons rs rest ih =>
          intro s hs
          exact ih _ (batchFold_beyond dumps rs _ (sinkRollover_beyond split s hs))
      exact this brs sink0 beyondEmpty_sink0
    have hmem : line ∈ batchLines dumps brs := by
      have := mem_files_mem_flatTo _ hb i line hline
      rwa [flatTo_runBatchMode dumps split brs sink0 beyondEmpty_sink0,
        flatTo_sink0, List.nil_append] at this
    obtain ⟨rs, hrs, hin⟩ := List.mem_flatMap.mp hmem
    obtain ⟨r, hr, hres⟩ := List.mem_filterMap.mp hin
    obtain ⟨v, hv, ht, hline'⟩ := resLine_eq_some dumps r line hres
    exact ⟨rs, r, v, hrs, hr, hv, ht, hline', hline' ▸ hrt rs hrs r hr v hv⟩

/-- Witness for C7 (amended): the line-provenance clause applied to the
one-card fixture run — its single stored line is the dumps of the card's
truthy result and parses back to it. -/
theorem store_append_only_valid_json_witness :
    ∃ c v, c ∈ [fcard "w"] ∧ outcomeAll c = some v ∧ truthy v = true ∧
      "\x7b\"oracle_id\": \"w\"\x7d" = pyDumps v ∧
      pyLoads "\x7b\"oracle_id\": \"w\"\x7d" = some v := by
  refine store_append_only_valid_json.2.2.1 pyLoads pyDumps outcomeAll
    [fcard "w"] 0 ?_ 0 "\x7b\"oracle_id\": \"w\"\x7d" ?_
  · intro c hc v hv
    have hceq : c = fcard "w" := by simpa using hc
    subst hceq
    have hveq : v = tagOf (fcard "w") := Option.some.inj hv.symm
    subst hveq
    rfl
  · have hfiles : (runSeq pyDumps outcomeAll 0 [fcard "w"] sink0).files 0 =
        ["\x7b\"oracle_id\": \"w\"\x7d"] := rfl
    rw [hfiles]
    exact List.mem_singleton.mpr rfl

/-- C7 counterexample: a remote reply of `"5"` survives extraction, parses to
the truthy JSON value `5`, and is written as the store line `"5"` — a
syntactically valid JSON value that is not a JSON object. -/
theorem nonobject_line_counterexample :
    pyLoads (clean_json jsonOk "5") = some (jnum 5) ∧
    truthy (jnum 5) = true ∧
    (runSeq pyDumps (fun _ => some (jnum 5)) 0 [fcard "x"] sink0).files 0 =
      ["5"] ∧
    pyLoads "5" = some (jnum 5) ∧
    isObjVal (jnum 5) = false := by
  exact ⟨rfl, rfl, rfl, rfl, rfl⟩

/-! ### C5: resume idempotence -/

/-- A successful, well-keyed outcome: the parsed result is truthy, its dumps
line is nonblank and parses back to it, and it is an object whose
`oracle_id` member equals the card's `oracle_id`. -/
def GoodOutcome (loads : String → Option JVal) (dumps : JVal → String)
    (c : Card) (v : JVal) : Prop :=
  truthy v = true ∧
  pyStrip (dumps v) ≠ "" ∧
  loads (pyStrip (dumps v)) = some v ∧
  ∃ fields oid, v = jobj fields ∧
    objLookup "oracle_id" fields = some (jstr oid) ∧ c.oracle_id = some oid

theorem resumeScan_newLines (loads : String → Option JVal)
    (dumps : JVal → String) (outcome : Card → Option JVal) :
    ∀ cards : List Card,
      (∀ c ∈ cards, ∃ v, outcome c = some v ∧ GoodOutcome loads dumps c v) →
      ∃ ids, resumeScan loads (newLines dumps outcome cards) = some ids ∧
        ∀ c ∈ cards, ids.any (pyEqOid c.oracle_id) = true := by
  intro cards
  induction cards with
  | nil =>
    intro _
    exact ⟨[], rfl, by simp⟩
  | cons c cs ih =>
    intro h
    obtain ⟨v, hv, ht, hne, hloads, fields, oid, hvobj, hlook, hcid⟩ :=
      h c (by simp)
    obtain ⟨ids', hscan', hall'⟩ := ih fun c' hc' => h c' (by simp [hc'])
    have hline : newLines dumps outcome (c :: cs) =
        dumps v :: newLines dumps outcome cs := by
      rw [newLines_cons, hv, resLine, if_pos ht]
      rfl
    have hgot : resultGetOid v = some (some (jstr oid)) := by
      rw [hvobj, resultGetOid, hlook]
    refine ⟨some (jstr oid) :: ids', ?_, ?_⟩
    · rw [hline, resumeScan, if_neg (by simpa using hne)]
      simp [hloads, hgot, hscan']
    · intro c' hc'
      rcases List.mem_cons.mp hc' with rfl | hmem
      · rw [List.any_cons, hcid]
        simp [pyEqOid]
      · rw [List.any_cons, hall' c' hmem, Bool.or_true]

/-- C5: with resume enabled and an existing output file, the scan collects
the recorded oracle_ids and removes exactly the input cards whose oracle_id
is in that set; hence after a complete run in which every card succeeded
with a record carrying its oracle_id, re-running with resume enabled and an
unchanged input set processes zero cards and writes zero new lines; with
resume disabled the base output file is truncated at run start. -/
theorem resume_idempotent :
    (∀ (loads : String → Option JVal) (lines : List String)
      (cards : List Card) (ids : List (Option JVal)),
      resumeScan loads lines = some ids →
      mainResume loads true true lines cards =
        cards.filter fun c => !(ids.any (pyEqOid c.oracle_id))) ∧
    (∀ (loads : String → Option JVal) (dumps : JVal → String)
      (outcome : Card → Option JVal) (cards : List Card),
      (∀ c ∈ cards, ∃ v, outcome c = some v ∧ GoodOutcome loads dumps c v) →
      mainResume loads true true
        ((runSeq dumps outcome 0 cards sink0).files 0) cards = [] ∧
      ∀ s, runSeq dumps outcome 0
        (mainResume loads true true
          ((runSeq dumps outcome 0 cards sink0).files 0) cards) s = s) ∧
    (∀ fs : Nat → List String, clearBase fs 0 = []) := by
  refine ⟨?_, ?_, fun _ => rfl⟩
  · intro loads lines cards ids hscan
    rw [mainResume, if_pos ⟨rfl, rfl⟩, applyResume, hscan]
  · intro loads dumps outcome cards h
    have hstore : (runSeq dumps outcome 0 cards sink0).files 0 =
        newLines dumps outcome cards := by
      rw [← flatTo_eq_file0 _ (runSeq_split0_index dumps outcome cards sink0),
        flatTo_runSeq dumps outcome 0 cards sink0 beyondEmpty_sink0,
        flatTo_sink0, List.nil_append]
    obtain ⟨ids, hscan, hall⟩ := resumeScan_newLines loads dumps outcome cards h
    have hmain : mainResume loads true true
        ((runSeq dumps outcome 0 cards sink0).files 0) cards = [] := by
      rw [mainResume, if_pos ⟨rfl, rfl⟩, applyResume, hstore, hscan,
        List.filter_eq_nil_iff]
      intro c hc
      rw [hall c hc]
      simp
    exact ⟨hmain, fun s => by rw [hmain]; rfl⟩

/-- Witness for C5: a one-card run whose record carries the card's oracle_id;
the resumed rerun has an empty work list. -/
theorem resume_idempotent_witness :
    mainResume pyLoads true true
      ((runSeq pyDumps outcomeAll 0 [fcard "abc"] sink0).files 0)
      [fcard "abc"] = [] := by
  refine (resume_idempotent.2.1 pyLoads pyDumps outcomeAll [fcard "abc"] ?_).1
  intro c hc
  have hceq : c = fcard "abc" := by simpa using hc
  subst hceq
  exact ⟨tagOf (fcard "abc"), rfl, rfl, by decide, rfl,
    [("oracle_id", jstr "abc")], "abc", rfl, rfl, rfl⟩

/-! ### C3: bounded concurrency -/

theorem lt_length_of_getD_ne {α : Type} (d : α) :
    ∀ (l : List α) (i : Nat), l.getD i d ≠ d → i < l.length := by
  intro l
  induction l with
  | nil => intro i h; exact absurd rfl h
  | cons a t ih =>
    intro i h
    cases i with
    | zero => simp
    | succ i =>
      have := ih i h
      simp only [List.length_cons]
      omega

theorem getD_set_self {α : Type} (d v : α) :
    ∀ (l : List α) (i : Nat), i < l.length → (l.set i v).getD i d = v := by
  intro l
  induction l with
  | nil => intro i h; simp at h
  | cons a t ih =>
    intro i h
    cases i with
    | zero => rfl
    | succ i =>
      simp only [List.length_cons] at h
      exact ih i (by omega)

theorem getD_set_ne {α : Type} (d v : α) :
    ∀ (l : List α) (i j : Nat), j ≠ i → (l.set i v).getD j d = l.getD j d := by
  intro l
  induction l with
  | nil => intro i j _; rfl
  | cons a t ih =>
    intro i j hne
    cases i with
    | zero =>
      cases j with
      | zero => exact absurd rfl hne
      | succ j => rfl
    | succ i =>
      cases j with
      | zero => rfl
      | succ j => exact ih i j (by omega)

theorem countRunning_set_run :
    ∀ (l : List TStatus) (i : Nat), l.getD i TStatus.done = TStatus.pending →
      countRunning (l.set i TStatus.running) = countRunning l + 1 := by
  intro l
  induction l with
  | nil =>
    intro i h
    have h' : TStatus.done = TStatus.pending := h
    exact absurd h' (by decide)
  | cons a t ih =>
    intro i h
    cases i with
    | zero =>
      have ha : a = TStatus.pending := h
      rw [ha]
      show (1 : Nat) + countRunning t = (0 : Nat) + countRunning t + 1
      omega
    | succ i =>
      show (if a = TStatus.running then 1 else 0) + countRunning (t.set i TStatus.running) =
        (if a = TStatus.running then 1 else 0) + countRunning t + 1
      rw [ih i h]
      omega

theorem countRunning_set_done :
    ∀ (l : List TStatus) (i : Nat), l.getD i TStatus.done = TStatus.running →
      countRunning (l.set i TStatus.done) + 1 = countRunning l := by
  intro l
  induction l with
  | nil =>
    intro i h
    have h' : TStatus.done = TStatus.running := h
    exact absurd h' (by decide)
  | cons a t ih =>
    intro i h
    cases i with
    | zero =>
      have ha : a = TStatus.running := h
      rw [ha]
      show (0 : Nat) + countRunning t + 1 = (1 : Nat) + countRunning t
      omega
    | succ i =>
      show (if a = TStatus.running then 1 else 0) + countRunning (t.set i TStatus.done) + 1 =
        (if a = TStatus.running then 1 else 0) + countRunning t
      rw [← ih i h]
      omega

theorem countRunning_replicate_pending :
    ∀ n, countRunning (List.replicate n TStatus.pending) = 0
  | 0 => rfl
  | n + 1 => by
    show (0 : Nat) + countRunning (List.replicate n TStatus.pending) = 0
    rw [countRunning_replicate_pending n]

theorem getD_replicate_zero :
    ∀ (n i : Nat), (List.replicate n (0 : Nat)).getD i 0 = 0
  | 0, _ => rfl
  | _ + 1, 0 => rfl
  | n + 1, i + 1 => getD_replicate_zero n i

/-- The dispatcher invariant: free slots plus in-flight tasks equal the gate
capacity, the ghost call counters track statuses, there is one task per
input card, and no task has entered the gate more than once. -/
def DispatchInv (C n : Nat) (s : DispatchState) : Prop :=
  s.avail + countRunning s.tasks = C ∧
  s.tasks.length = n ∧
  s.calls.length = n ∧
  ∀ i, s.calls.getD i 0 ≤ 1 ∧
    (s.tasks.getD i TStatus.done = TStatus.pending → s.calls.getD i 0 = 0)

theorem dispatchInit_inv (C : Nat) (cards : List Card) :
    DispatchInv C cards.length (dispatchInit C cards) := by
  refine ⟨?_, ?_, ?_, ?_⟩
  · show C + countRunning (List.replicate cards.length TStatus.pending) = C
    rw [countRunning_replicate_pending]
    omega
  · exact List.length_replicate _ _
  · exact List.length_replicate _ _
  · intro i
    constructor
    · rw [show (dispatchInit C cards).calls = List.replicate cards.length 0 from rfl,
        getD_replicate_zero]
      omega
    · intro _
      rw [show (dispatchInit C cards).calls = List.replicate cards.length 0 from rfl,
        getD_replicate_zero]

theorem dispatchStep_inv (C n : Nat) (st st' : DispatchState)
    (hstep : DispatchStep st st') (hinv : DispatchInv C n st) :
    DispatchInv C n st' := by
  obtain ⟨h1, h2, h3, h4⟩ := hinv
  cases hstep with
  | acquire i hp ha =>
    have hilt : i < st.tasks.length :=
      lt_length_of_getD_ne TStatus.done st.tasks i (by rw [hp]; decide)
    have hclt : i < st.calls.length := by omega
    have hc0 : st.calls.getD i 0 = 0 := (h4 i).2 hp
    refine ⟨?_, ?_, ?_, ?_⟩
    · show st.avail - 1 + countRunning (st.tasks.set i TStatus.running) = C
      rw [countRunning_set_run st.tasks i hp]
      omega
    · show (st.tasks.set i TStatus.running).length = n
      rw [List.length_set]
      exact h2
    · show (st.calls.set i (st.calls.getD i 0 + 1)).length = n
      rw [List.length_set]
      exact h3
    · intro j
      show (st.calls.set i (st.calls.getD i 0 + 1)).getD j 0 ≤ 1 ∧
        ((st.tasks.set i TStatus.running).getD j TStatus.done = TStatus.pending →
          (st.calls.set i (st.calls.getD i 0 + 1)).getD j 0 = 0)
      by_cases hj : j = i
      · subst hj
        rw [getD_set_self 0 _ st.calls j hclt,
          getD_set_self TStatus.done _ st.tasks j hilt]
        constructor
        · rw [hc0]
        · intro habs
          exact absurd habs (by decide)
      · rw [getD_set_ne 0 _ st.calls i j hj,
          getD_set_ne TStatus.done _ st.tasks i j hj]
        exact h4 j
  | release i hr =>
    refine ⟨?_, ?_, ?_, ?_⟩
    · show st.avail + 1 + countRunning (st.tasks.set i TStatus.done) = C
      have := countRunning_set_done st.tasks i hr
      omega
    · show (st.tasks.set i TStatus.done).length = n
      rw [List.length_set]
      exact h2
    · exact h3
    · intro j
      show st.calls.getD j 0 ≤ 1 ∧
        ((st.tasks.set i TStatus.done).getD j TStatus.done = TStatus.pending →
          st.calls.getD j 0 = 0)
      by_cases hj : j = i
      · subst hj
        have hilt : j < st.tasks.length :=
          lt_length_of_getD_ne TStatus.done st.tasks j (by rw [hr]; decide)
        rw [getD_set_self TStatus.done _ st.tasks j hilt]
        exact ⟨(h4 j).1, fun habs => absurd habs (by decide)⟩
      · rw [getD_set_ne TStatus.done _ st.tasks i j hj]
        exact h4 j

theorem dispatchReachable_inv (C : Nat) (cards : List Card) (s : DispatchState)
    (h : DispatchReachable C cards s) :
    DispatchInv C cards.length s := by
  induction h with
  | refl => exact dispatchInit_inv C cards
  | tail _ hstep ih => exact dispatchStep_inv C cards.length _ _ hstep ih

/-- C3: in bounded-concurrent mode with gate capacity `C ≥ 1`, one task per
input card is submitted up front, in every reachable dispatcher state the
number of simultaneously in-flight remote calls never exceeds `C`, and no
task has entered the admission gate more than once (each card is processed
at most once per run). -/
theorem bounded_concurrency (C : Nat) (cards : List Card) (s : DispatchState)
    (hC : 1 ≤ C) (hreach : DispatchReachable C cards s) :
    countRunning s.tasks ≤ C ∧
    (∀ i, s.calls.getD i 0 ≤ 1) ∧
    s.tasks.length = cards.length := by
  obtain ⟨h1, h2, h3, h4⟩ := dispatchReachable_inv C cards s hreach
  have hle : 1 ≤ C := hC
  exact ⟨by omega, fun i => (h4 i).1, h2⟩

/-- The dispatcher state after one acquire step from the initial state with
capacity 2 over the five-card fixture. -/
def stepState : DispatchState :=
  ⟨1, (List.replicate 5 TStatus.pending).set 0 TStatus.running,
   (List.replicate 5 (0 : Nat)).set 0 1⟩

/-- Witness for C3: the invariant at a concretely reached state — capacity 2,
five tasks, one having acquired the gate. -/
theorem bounded_concurrency_witness :
    countRunning stepState.tasks ≤ 2 ∧
    (∀ i, stepState.calls.getD i 0 ≤ 1) ∧
    stepState.tasks.length = fiveCards.length := by
  refine bounded_concurrency 2 fiveCards stepState (by omega) ?_
  exact Relation.ReflTransGen.single
    (DispatchStep.acquire (dispatchInit 2 fiveCards) 0 rfl (by decide))

end MTGTagger
